import Mathlib

/-!
Shallow embedding of `src/bitmap.h` (mesh bitmap), on a 64-bit system:
`word_t = size_t` is 64 bits wide, so `WORDBITS = 64`, `WORDBYTES = 8` and
`WORDBITSHIFT = 6`.  Machine words are modelled as `Nat` values below `2 ^ 64`;
the owned buffer `_bitarray` is a `List Nat` whose length is the number of
words actually allocated by `reserve`.  Loops are modelled with explicit fuel
equal to the number of remaining iterations, and every raw word access made by
a scan loop goes through `List.getElem?`, so that an access past the allocated
buffer is visible as a `none` result instead of undefined behaviour.
-/

namespace Mesh

/-- Number of bits in a machine word: `WORDBITS = sizeof(word_t) * 8 = 64`. -/
def WORDBITS : Nat := 64

/-- Number of bytes in a machine word: `WORDBYTES = sizeof(word_t) = 8`. -/
def WORDBYTES : Nat := 8

/-- The all-ones machine word `~0UL`. -/
def allOnes : Nat := 2 ^ 64 - 1

/-- The 64-bit complement `~w` of a machine word, as a `Nat`.
For `w < 2 ^ 64` this equals `2 ^ 64 - 1 - w`. -/
def compl64 (w : Nat) : Nat := allOnes ^^^ w

/-- Model of `getMask(pos)`: `((word_t)1) << pos`. -/
def getMask (pos : Nat) : Nat := 1 <<< pos

/-- Model of `__builtin_ffsll`, fuel-indexed worker: one plus the index of the
least significant set bit, or 0 when the argument is 0.  The fuel only has to
dominate the number of halvings, which is at most the argument itself. -/
def ffsGo : Nat → Nat → Nat
  | 0, _ => 0
  | fuel + 1, w => if w = 0 then 0 else if w % 2 = 1 then 1 else ffsGo fuel (w / 2) + 1

/-- Model of `__builtin_ffsll(w)`. -/
def ffsll (w : Nat) : Nat := ffsGo w w

/-- Model of `__builtin_popcountl`, fuel-indexed worker. -/
def popcountGo : Nat → Nat → Nat
  | 0, _ => 0
  | fuel + 1, w => if w = 0 then 0 else w % 2 + popcountGo fuel (w / 2)

/-- Model of `__builtin_popcountl(w)`: the number of set bits of `w`. -/
def popcount (w : Nat) : Nat := popcountGo w w

/-- The state of a `Bitmap<Heap>`: the logical bit count `_elements` and the
owned word buffer `_bitarray` (one entry per allocated machine word). -/
structure Bitmap where
  elements : Nat
  bitarray : List Nat
deriving DecidableEq, Repr

namespace Bitmap

/-- Model of `wordCount()`: `WORDBITS * ((_elements + WORDBITS - 1) / WORDBITS) / 8`.
Note that this expression evaluates to `WORDBYTES * ceil(_elements / WORDBITS)`,
the byte count of the buffer, even though the source comment describes it as the
number of machine words. -/
def wordCount (b : Bitmap) : Nat :=
  WORDBITS * ((b.elements + WORDBITS - 1) / WORDBITS) / 8

/-- Model of `bitCount()`: returns `_elements`. -/
def bitCount (b : Bitmap) : Nat := b.elements

/-- Model of `reserve(nelts)`: sets `_elements = nelts` and allocates
`Heap::malloc(wordCount())` bytes, i.e. `wordCount() / WORDBYTES` machine
words, then zero-fills them via `clear()` (`memset` of `wordCount()` bytes,
which is exactly the allocated size). -/
def reserve (nelts : Nat) : Bitmap :=
  let e := nelts
  let nwords := (WORDBITS * ((e + WORDBITS - 1) / WORDBITS) / 8) / WORDBYTES
  ⟨e, List.replicate nwords 0⟩

/-- Model of `clear()`: `memset(_bitarray, 0, wordCount())`, zero-filling the
buffer in place. -/
def clear (b : Bitmap) : Bitmap :=
  ⟨b.elements, List.replicate b.bitarray.length 0⟩

/-- Model of `isSet(index)`.  `computeItemPosition` yields
`item = index >> WORDBITSHIFT = index / 64` and
`position = index & (WORDBITS - 1) = index % 64`; the source then tests
`_bitarray[item] & getMask(position)`.  The source asserts `index < _elements`
in debug builds; theorems carry that precondition where relevant. -/
def isSet (b : Bitmap) (index : Nat) : Bool :=
  let item := index / WORDBITS
  let position := index % WORDBITS
  decide (b.bitarray.getD item 0 &&& getMask position ≠ 0)

/-- Model of the private `tryToSetAt(item, position)`: ors the mask into the
word and reports whether the bit was previously clear. -/
def tryToSetAt (b : Bitmap) (item position : Nat) : Bool × Bitmap :=
  let mask := getMask position
  let oldvalue := b.bitarray.getD item 0
  (decide (oldvalue &&& mask = 0), ⟨b.elements, b.bitarray.set item (oldvalue ||| mask)⟩)

/-- Model of `tryToSet(index)`. -/
def tryToSet (b : Bitmap) (index : Nat) : Bool × Bitmap :=
  b.tryToSetAt (index / WORDBITS) (index % WORDBITS)

/-- Model of `unset(index)`: clears the bit and reports whether the word
changed. -/
def unset (b : Bitmap) (index : Nat) : Bool × Bitmap :=
  let item := index / WORDBITS
  let position := index % WORDBITS
  let oldvalue := b.bitarray.getD item 0
  let newvalue := oldvalue &&& compl64 (getMask position)
  (decide (oldvalue ≠ newvalue), ⟨b.elements, b.bitarray.set item newvalue⟩)

/-- Model of `inUseCount()`: sums `__builtin_popcountl(_bitarray[i])` for
`i < _elements / WORDBITS` (full words only; integer division). -/
def inUseCount (b : Bitmap) : Nat :=
  (List.range (b.elements / WORDBITS)).foldl
    (fun count i => count + popcount (b.bitarray.getD i 0)) 0

/-- Model of `to_string()` with its default argument `nElements = -1`, which
the source replaces by `_elements`: one character per tracked bit. -/
def to_string (b : Bitmap) : List Char :=
  (List.range b.elements).map (fun i => if b.isSet i then '1' else '0')

end Bitmap

/-- Result of one of the word-scanning loops inside `setFirstEmpty` and
`lowestSetBit`: a hit at word `wordIdx` with bit offset `bitOff`, a read of a
word index outside the allocated buffer, or loop exhaustion. -/
inductive ScanHit where
  | found (wordIdx bitOff : Nat)
  | oob (wordIdx : Nat)
  | exhausted
deriving DecidableEq, Repr

/-- The scan loop of `setFirstEmpty`, fuel-indexed: fuel is `words - i`,
maintaining the source guard `i < words`.  At each word the source skips an
all-ones word, complements the word, masks off the bits below `off`
(`unsetBits &= ~((1UL << off) - 1)`), skips if nothing remains, and otherwise
returns the word index together with `__builtin_ffsll(unsetBits) - 1`. -/
def sfeLoop (ba : List Nat) : Nat → Nat → Nat → ScanHit
  | 0, _, _ => .exhausted
  | fuel + 1, i, off =>
    match ba[i]? with
    | none => .oob i
    | some bits =>
      if bits = allOnes then
        sfeLoop ba fuel (i + 1) 0
      else
        let unsetBits := compl64 bits &&& compl64 (getMask off - 1)
        if unsetBits = 0 then
          sfeLoop ba fuel (i + 1) 0
        else
          .found i (ffsll unsetBits - 1)

/-- Observable outcome of `setFirstEmpty`: a returned index together with the
updated bitmap, a word read past the allocated buffer (undefined behaviour in
the source), or the `abort()` call at the end of the scan. -/
inductive SfeOutcome where
  | found (b : Bitmap) (idx : Nat)
  | oobRead (wordIdx : Nat)
  | fullAbort
deriving DecidableEq, Repr

/-- Model of `setFirstEmpty(startingAt)`.  `computeItemPosition` gives
`startWord = startingAt / 64` and `off = startingAt % 64`; the loop bound
`words` is `wordCount()`.  On a hit the source calls `tryToSetAt` and returns
`WORDBITS * i + off`. -/
def Bitmap.setFirstEmpty (b : Bitmap) (startingAt : Nat) : SfeOutcome :=
  let startWord := startingAt / WORDBITS
  let off := startingAt % WORDBITS
  let words := b.wordCount
  match sfeLoop b.bitarray (words - startWord) startWord off with
  | .found i off2 => .found (b.tryToSetAt i off2).2 (WORDBITS * i + off2)
  | .oob i => .oobRead i
  | .exhausted => .fullAbort

/-- The scan loop of `lowestSetBit`, fuel-indexed: fuel is `words - i`.  Zero
words are skipped; the first nonzero word yields
`WORDBITS * i + (__builtin_ffsll(word) - 1)`. -/
def lsbLoop (ba : List Nat) : Nat → Nat → ScanHit
  | 0, _ => .exhausted
  | fuel + 1, i =>
    match ba[i]? with
    | none => .oob i
    | some w =>
      if w = 0 then lsbLoop ba fuel (i + 1)
      else .found i (ffsll w - 1)

/-- Observable outcome of `lowestSetBit`: the returned index, or a word read
past the allocated buffer. -/
inductive LsbOutcome where
  | ok (idx : Nat)
  | oobRead (wordIdx : Nat)
deriving DecidableEq, Repr

/-- Model of the private `lowestSetBit()`: scans words `0 ..< wordCount()` and
returns `bitCount()` when every scanned word is zero. -/
def Bitmap.lowestSetBit (b : Bitmap) : LsbOutcome :=
  match lsbLoop b.bitarray b.wordCount 0 with
  | .found i off => .ok (WORDBITS * i + off)
  | .oob i => .oobRead i
  | .exhausted => .ok b.bitCount

/-- The inner scan of `BitmapIter::operator++`:
`for (; next < bitCount && !isSet(next); ++next)`, fuel-indexed. -/
def advLoop (b : Bitmap) : Nat → Nat → Nat
  | 0, next => next
  | fuel + 1, next =>
    if next < b.bitCount ∧ b.isSet next = false then advLoop b fuel (next + 1)
    else next

/-- Model of `BitmapIter::operator++` on current index `i`: scans forward from
`i + 1`, then applies the source bump
`if (next == bitCount() - 1 && !isSet(next)) next++`. -/
def iterNext (b : Bitmap) (i : Nat) : Nat :=
  let next := advLoop b b.bitCount (i + 1)
  if next = b.bitCount - 1 ∧ b.isSet next = false then next + 1 else next

/-- Model of the string constructor body after `reserve(str.length())`: walk
the characters; `d_assert_msg(c == 0 or 1)` failing is modelled as an error
carrying the bitmap state at the moment the assertion is raised; a `1` sets
the bit at the character index via `tryToSet(i)`. -/
def buildBits (b : Bitmap) : List Char → Nat → Except Bitmap Bitmap
  | [], _ => .ok b
  | c :: rest, i =>
    if c = '0' ∨ c = '1' then
      buildBits (if c = '1' then (b.tryToSet i).2 else b) rest (i + 1)
    else
      .error b

/-- Model of `Bitmap(const std::string &str)`: reserve `str.length()` bits,
then set a bit per `1` character, failing on any other character. -/
def Bitmap.ofString (s : List Char) : Except Bitmap Bitmap :=
  buildBits (Bitmap.reserve s.length) s 0

/-- Field-level model of a `Bitmap` for the move constructor and destructor,
where the buffer pointer may be null (`none`). -/
structure RawBitmap where
  elements : Nat
  bitarrayPtr : Option (List Nat)
deriving DecidableEq, Repr

/-- Model of `bitCount()` on the raw view: returns `_elements`. -/
def RawBitmap.bitCount (b : RawBitmap) : Nat := b.elements

/-- Model of the move constructor `Bitmap(Bitmap &&rhs)`: the new object
copies `_elements` and `_bitarray`; `rhs._bitarray` is nulled and
`rhs._elements` is left untouched.  Returns (new object, moved-from source). -/
def moveCtor (rhs : RawBitmap) : RawBitmap × RawBitmap :=
  (⟨rhs.elements, rhs.bitarrayPtr⟩, ⟨rhs.elements, none⟩)

/-- Model of the destructor: it calls `Heap::free(_bitarray)` exactly when the
buffer pointer is non-null. -/
def destructorFrees (b : RawBitmap) : Bool := b.bitarrayPtr.isSome

end Mesh

deriving instance DecidableEq for Except

namespace Mesh

/-! Helper lemmas about the word-level primitives. -/

theorem and_getMask_ne_zero (x p : Nat) : (x &&& getMask p ≠ 0) ↔ x.testBit p = true := by
  unfold getMask
  rw [Nat.shiftLeft_eq, one_mul]
  constructor
  · intro h
    by_contra hbit
    apply h
    apply Nat.eq_of_testBit_eq
    intro i
    rw [Nat.testBit_and, Nat.zero_testBit]
    rcases eq_or_ne p i with rfl | hne
    · simp [Bool.eq_false_iff.mpr hbit]
    · simp [Nat.testBit_two_pow_of_ne hne]
  · intro h h0
    have : (x &&& 2 ^ p).testBit p = true := by
      rw [Nat.testBit_and, h, Nat.testBit_two_pow_self]
      rfl
    rw [h0, Nat.zero_testBit] at this
    exact Bool.noConfusion this

theorem decide_and_getMask (x p : Nat) :
    decide (x &&& getMask p ≠ 0) = x.testBit p := by
  cases hb : x.testBit p with
  | true => exact decide_eq_true ((and_getMask_ne_zero x p).mpr hb)
  | false =>
    apply decide_eq_false
    intro hc
    rw [(and_getMask_ne_zero x p).mp hc] at hb
    exact Bool.noConfusion hb

theorem isSet_eq_testBit (b : Bitmap) (j : Nat) :
    b.isSet j = (b.bitarray.getD (j / 64) 0).testBit (j % 64) := by
  unfold Bitmap.isSet WORDBITS
  exact decide_and_getMask _ _

theorem testBit_allOnes (p : Nat) : allOnes.testBit p = decide (p < 64) := by
  unfold allOnes
  exact Nat.testBit_two_pow_sub_one 64 p

theorem testBit_lt_two_pow_ge {x p n : Nat} (hx : x < 2 ^ n) (hp : n ≤ p) :
    x.testBit p = false :=
  Nat.testBit_lt_two_pow (lt_of_lt_of_le hx (Nat.pow_le_pow_right (by omega) hp))

theorem testBit_compl64_lt {w p : Nat} (hp : p < 64) :
    (compl64 w).testBit p = ! w.testBit p := by
  unfold compl64
  rw [Nat.testBit_xor, testBit_allOnes, decide_eq_true hp, Bool.true_xor]

theorem testBit_compl64_ge {w p : Nat} (hw : w < 2 ^ 64) (hp : 64 ≤ p) :
    (compl64 w).testBit p = false := by
  unfold compl64
  rw [Nat.testBit_xor, testBit_allOnes, testBit_lt_two_pow_ge hw hp]
  simp [decide_eq_false (by omega : ¬ p < 64)]

theorem getMask_sub_one (off : Nat) : getMask off - 1 = 2 ^ off - 1 := by
  unfold getMask
  rw [Nat.shiftLeft_eq, one_mul]

theorem ffsGo_spec : ∀ fuel w k, w ≤ fuel → w.testBit k = true →
    (∀ q, q < k → w.testBit q = false) → ffsGo fuel w = k + 1 := by
  intro fuel
  induction fuel with
  | zero =>
    intro w k hw hk _
    interval_cases w
    rw [Nat.zero_testBit] at hk
    exact Bool.noConfusion hk
  | succ f ih =>
    intro w k hw hk hlow
    have hw0 : w ≠ 0 := by
      intro h
      rw [h, Nat.zero_testBit] at hk
      exact Bool.noConfusion hk
    cases k with
    | zero =>
      have : w % 2 = 1 := by
        rw [Nat.testBit_zero] at hk
        exact of_decide_eq_true hk
      simp [ffsGo, hw0, this]
    | succ k =>
      have hodd : ¬ w % 2 = 1 := by
        have h0 := hlow 0 (Nat.succ_pos k)
        rw [Nat.testBit_zero] at h0
        intro hc
        rw [hc] at h0
        simp at h0
      have hrec : ffsGo f (w / 2) = k + 1 := by
        apply ih
        · omega
        · rw [← Nat.testBit_add_one]
          exact hk
        · intro q hq
          rw [← Nat.testBit_add_one]
          exact hlow (q + 1) (by omega)
      simp [ffsGo, hw0, hodd, hrec]

theorem ffsll_spec (w k : Nat) (hk : w.testBit k = true)
    (hlow : ∀ q, q < k → w.testBit q = false) : ffsll w = k + 1 :=
  ffsGo_spec w w k (le_refl w) hk hlow

theorem testBit_ne_zero {w k : Nat} (hk : w.testBit k = true) : w ≠ 0 := by
  intro h
  rw [h, Nat.zero_testBit] at hk
  exact Bool.noConfusion hk

theorem getMask_eq_two_pow (p : Nat) : getMask p = 2 ^ p := by
  unfold getMask
  rw [Nat.shiftLeft_eq, one_mul]

theorem getElem?_eq_some_getD {l : List Nat} {i : Nat} (h : i < l.length) :
    l[i]? = some (l.getD i 0) := by
  rw [List.getD_eq_getElem?_getD, List.getElem?_eq_getElem h]
  rfl

theorem getD_mem_of_lt {l : List Nat} {i : Nat} (h : i < l.length) :
    l.getD i 0 ∈ l := by
  rw [List.getD_eq_getElem?_getD, List.getElem?_eq_getElem h]
  exact List.getElem_mem h

/-! Correctness of the `setFirstEmpty` scan loop when a clear bit exists in
range: the loop lands on the lowest clear position at or after the starting
position, before ever reading past the buffer. -/

theorem sfeLoop_finds (ba : List Nat) (hw : ∀ w ∈ ba, w < 2 ^ 64)
    (i0 : Nat) (hi0len : i0 / 64 < ba.length)
    (hfree : (ba.getD (i0 / 64) 0).testBit (i0 % 64) = false) :
    ∀ fuel i off, off < 64 → 64 * i + off ≤ i0 → i0 / 64 < i + fuel →
      (∀ j, 64 * i + off ≤ j → j < i0 →
        (ba.getD (j / 64) 0).testBit (j % 64) = true) →
      sfeLoop ba fuel i off = .found (i0 / 64) (i0 % 64) := by
  intro fuel
  induction fuel with
  | zero =>
    intro i off hoff hle hfuel hmin
    omega
  | succ f ih =>
    intro i off hoff hle hfuel hmin
    have hi_le : i ≤ i0 / 64 := by omega
    have hilen : i < ba.length := lt_of_le_of_lt hi_le hi0len
    have hsome : ba[i]? = some (ba.getD i 0) := getElem?_eq_some_getD hilen
    have hwlt : ba.getD i 0 < 2 ^ 64 := hw _ (getD_mem_of_lt hilen)
    by_cases hcase : i = i0 / 64
    · -- the word containing the lowest clear bit
      have hfreei : (ba.getD i 0).testBit (i0 % 64) = false := by
        rw [hcase]
        exact hfree
      have hoffle : off ≤ i0 % 64 := by omega
      have hne : ba.getD i 0 ≠ allOnes := by
        intro h
        rw [h, testBit_allOnes] at hfreei
        simp [Nat.mod_lt i0 (by omega : 0 < 64)] at hfreei
      have tb_at :
          (compl64 (ba.getD i 0) &&& compl64 (getMask off - 1)).testBit (i0 % 64) = true := by
        rw [Nat.testBit_and, testBit_compl64_lt (Nat.mod_lt i0 (by omega)),
          testBit_compl64_lt (Nat.mod_lt i0 (by omega)), hfreei, getMask_sub_one,
          Nat.testBit_two_pow_sub_one, decide_eq_false (by omega : ¬ i0 % 64 < off)]
        rfl
      have tb_low : ∀ q, q < i0 % 64 →
          (compl64 (ba.getD i 0) &&& compl64 (getMask off - 1)).testBit q = false := by
        intro q hq
        have hq64 : q < 64 := by omega
        rw [Nat.testBit_and, testBit_compl64_lt hq64, testBit_compl64_lt hq64,
          getMask_sub_one, Nat.testBit_two_pow_sub_one]
        by_cases hqo : q < off
        · rw [decide_eq_true hqo]
          simp
        · have hj := hmin (64 * i + q) (by omega) (by omega)
          have e1 : (64 * i + q) / 64 = i := by omega
          have e2 : (64 * i + q) % 64 = q := by omega
          rw [e1, e2] at hj
          rw [hj]
          simp
      have hne0 : compl64 (ba.getD i 0) &&& compl64 (getMask off - 1) ≠ 0 :=
        testBit_ne_zero tb_at
      have hffs : ffsll (compl64 (ba.getD i 0) &&& compl64 (getMask off - 1)) = i0 % 64 + 1 :=
        ffsll_spec _ _ tb_at tb_low
      simp only [sfeLoop, hsome]
      rw [if_neg hne]
      simp only [if_neg hne0, hffs, Nat.add_sub_cancel]
      rw [hcase]
    · -- a word strictly before the hit word: it is skipped
      have hi_lt : i < i0 / 64 := lt_of_le_of_ne hi_le hcase
      have hrec : sfeLoop ba f (i + 1) 0 = .found (i0 / 64) (i0 % 64) := by
        apply ih (i + 1) 0 (by omega) (by omega) (by omega)
        intro j hj1 hj2
        exact hmin j (by omega) hj2
      by_cases hall : ba.getD i 0 = allOnes
      · simp only [sfeLoop, hsome]
        rw [if_pos hall]
        exact hrec
      · have hzero : compl64 (ba.getD i 0) &&& compl64 (getMask off - 1) = 0 := by
          apply Nat.eq_of_testBit_eq
          intro p
          rw [Nat.zero_testBit, Nat.testBit_and]
          by_cases hp64 : p < 64
          · rw [testBit_compl64_lt hp64, testBit_compl64_lt hp64, getMask_sub_one,
              Nat.testBit_two_pow_sub_one]
            by_cases hpo : p < off
            · simp [decide_eq_true hpo]
            · have hj := hmin (64 * i + p) (by omega) (by omega)
              have e1 : (64 * i + p) / 64 = i := by omega
              have e2 : (64 * i + p) % 64 = p := by omega
              rw [e1, e2] at hj
              rw [hj]
              simp
          · rw [testBit_compl64_ge hwlt (by omega)]
            simp
        simp only [sfeLoop, hsome]
        rw [if_neg hall]
        simp only [if_pos hzero]
        exact hrec

theorem wordCount_eq (b : Bitmap) : b.wordCount = 8 * ((b.elements + 63) / 64) := by
  unfold Bitmap.wordCount WORDBITS
  omega

theorem isSet_after_tryToSet (b : Bitmap) (k : Nat) (hk : k / 64 < b.bitarray.length) :
    (b.tryToSet k).2.isSet k = true := by
  rw [isSet_eq_testBit]
  unfold Bitmap.tryToSet Bitmap.tryToSetAt WORDBITS
  simp only
  have hset : ((b.bitarray.set (k / 64)
      (b.bitarray.getD (k / 64) 0 ||| getMask (k % 64))).getD (k / 64) 0)
      = b.bitarray.getD (k / 64) 0 ||| getMask (k % 64) := by
    rw [List.getD_eq_getElem?_getD, List.getElem?_set_self (by simpa using hk)]
    rfl
  rw [hset, getMask_eq_two_pow, Nat.testBit_or, Nat.testBit_two_pow_self, Bool.or_true]

/-- C1: for every bitmap (buffer of the allocated length, machine-sized words)
and every `startingAt` below `elementCount` such that some index in
`[startingAt, elementCount)` is clear, `setFirstEmpty(startingAt)` sets the
lowest such index to 1 and returns it; in particular the returned index is
never smaller than `startingAt`. -/
theorem setFirstEmpty_finds_lowest (b : Bitmap) (start i0 : Nat)
    (hlen : b.bitarray.length = (b.elements + 63) / 64)
    (hw : ∀ w ∈ b.bitarray, w < 2 ^ 64)
    (hstart : start ≤ i0) (hi0 : i0 < b.elements)
    (hfree : b.isSet i0 = false)
    (hmin : ∀ j, start ≤ j → j < i0 → b.isSet j = true) :
    b.setFirstEmpty start = .found (b.tryToSet i0).2 i0 ∧
      (b.tryToSet i0).2.isSet i0 = true ∧ start ≤ i0 := by
  have hi0len : i0 / 64 < b.bitarray.length := by
    rw [hlen]
    omega
  have hloop := sfeLoop_finds b.bitarray hw i0 hi0len
    (by rw [← isSet_eq_testBit]; exact hfree)
    (b.wordCount - start / 64) (start / 64) (start % 64)
    (by omega) (by omega)
    (by rw [wordCount_eq]; omega)
    (fun j hj1 hj2 => by rw [← isSet_eq_testBit]; exact hmin j (by omega) hj2)
  refine ⟨?_, isSet_after_tryToSet b i0 hi0len, hstart⟩
  simp only [Bitmap.setFirstEmpty, WORDBITS, hloop]
  have hidx : 64 * (i0 / 64) + i0 % 64 = i0 := by omega
  rw [hidx]
  simp only [Bitmap.tryToSet, WORDBITS]

/-- Witness for C1 at the all-clear bitmap of 3 bits, `startingAt = 0`. -/
theorem setFirstEmpty_finds_lowest_witness :
    (Bitmap.reserve 3).setFirstEmpty 0 = .found ((Bitmap.reserve 3).tryToSet 0).2 0 ∧
      ((Bitmap.reserve 3).tryToSet 0).2.isSet 0 = true ∧ 0 ≤ 0 :=
  setFirstEmpty_finds_lowest (Bitmap.reserve 3) 0 0 (by decide) (by decide)
    (by omega) (by decide) (by decide) (fun j h1 h2 => absurd h2 (by omega))

theorem isSet_tryToSet (b : Bitmap) (k j : Nat) (hk : k / 64 < b.bitarray.length) :
    (b.tryToSet k).2.isSet j = (decide (j = k) || b.isSet j) := by
  rw [isSet_eq_testBit, isSet_eq_testBit]
  unfold Bitmap.tryToSet Bitmap.tryToSetAt WORDBITS
  simp only
  by_cases hj64 : j / 64 = k / 64
  · have hset : ((b.bitarray.set (k / 64)
        (b.bitarray.getD (k / 64) 0 ||| getMask (k % 64))).getD (j / 64) 0)
        = b.bitarray.getD (k / 64) 0 ||| getMask (k % 64) := by
      rw [hj64, List.getD_eq_getElem?_getD, List.getElem?_set_self (by simpa using hk)]
      rfl
    rw [hset, getMask_eq_two_pow, Nat.testBit_or, Nat.testBit_two_pow, hj64]
    by_cases hjm : j % 64 = k % 64
    · rw [decide_eq_true (by omega : j = k), decide_eq_true (by omega : k % 64 = j % 64)]
      simp [Bool.or_comm]
    · rw [decide_eq_false (by omega : ¬ j = k), decide_eq_false (by omega : ¬ k % 64 = j % 64)]
      simp
  · have hset : ((b.bitarray.set (k / 64)
        (b.bitarray.getD (k / 64) 0 ||| getMask (k % 64))).getD (j / 64) 0)
        = b.bitarray.getD (j / 64) 0 := by
      rw [List.getD_eq_getElem?_getD, List.getElem?_set_ne (by omega : k / 64 ≠ j / 64),
        ← List.getD_eq_getElem?_getD]
    rw [hset, decide_eq_false (by omega : ¬ j = k)]
    simp

theorem tryToSet_elements (b : Bitmap) (k : Nat) :
    (b.tryToSet k).2.elements = b.elements := rfl

theorem tryToSet_length (b : Bitmap) (k : Nat) :
    (b.tryToSet k).2.bitarray.length = b.bitarray.length := by
  unfold Bitmap.tryToSet Bitmap.tryToSetAt
  simp

theorem getD_replicate_zero (m i : Nat) : (List.replicate m (0 : Nat)).getD i 0 = 0 := by
  rw [List.getD_eq_getElem?_getD, List.getElem?_replicate]
  split <;> rfl

theorem reserve_elements (n : Nat) : (Bitmap.reserve n).elements = n := rfl

theorem reserve_length (n : Nat) :
    (Bitmap.reserve n).bitarray.length = (n + 63) / 64 := by
  unfold Bitmap.reserve WORDBITS WORDBYTES
  simp only [List.length_replicate]
  omega

theorem reserve_isSet (n j : Nat) : (Bitmap.reserve n).isSet j = false := by
  rw [isSet_eq_testBit]
  unfold Bitmap.reserve
  simp only
  rw [getD_replicate_zero, Nat.zero_testBit]

/-- C2: the padding invariant is violated by the code.  The reachable one-bit
bitmap with its only tracked bit set (reserve(1) then tryToSet(0)) has all
padding bits clear, yet `setFirstEmpty(0)` sets the padding bit at index 1,
which is at or above `elementCount = 1`, and returns it. -/
theorem setFirstEmpty_sets_padding_bit :
    ((Bitmap.reserve 1).tryToSet 0).2 = Bitmap.mk 1 [1] ∧
    (∀ j, j < 64 → (Bitmap.mk 1 [1]).elements ≤ j →
      ((Bitmap.mk 1 [1]).bitarray.getD (j / 64) 0).testBit (j % 64) = false) ∧
    (Bitmap.mk 1 [1]).setFirstEmpty 0 = .found (Bitmap.mk 1 [3]) 1 ∧
    ((Bitmap.mk 1 [3]).bitarray.getD 0 0).testBit 1 = true ∧
    (Bitmap.mk 1 [3]).elements ≤ 1 := by decide

/-- C3: `wordCount()` on a 1-bit bitmap evaluates to 8, the byte count of the
buffer, while the storage behind it is a single machine word
(`ceil(1 / WORDBITS) = 1`), which is what the claim and the source comment say
`wordCount()` returns. -/
theorem wordCount_returns_bytes :
    (Bitmap.reserve 1).wordCount = 8 ∧
    (Bitmap.reserve 1).bitarray.length = 1 ∧
    (1 + WORDBITS - 1) / WORDBITS = 1 := by decide

/-- C4: the scan loops do read past the allocated buffer.  On the all-clear
64-bit bitmap (buffer of exactly one word) `lowestSetBit` reads word index 1,
and on a fully set one-word bitmap `setFirstEmpty(0)` does the same, because
both loops bound the word index by `wordCount()`, which is the byte count 8
rather than the word count 1. -/
theorem scan_loops_read_out_of_bounds :
    (Bitmap.reserve 64).lowestSetBit = .oobRead 1 ∧
    (Bitmap.reserve 64).bitarray.length = 1 ∧
    (Bitmap.mk 64 [allOnes]).setFirstEmpty 0 = .oobRead 1 ∧
    (Bitmap.mk 64 [allOnes]).bitarray.length = 1 := by decide

/-- C5: on the reachable one-bit bitmap whose every tracked index is set,
`setFirstEmpty(0)` does not abort: it sets the padding bit at index 1 and
returns 1. -/
theorem setFirstEmpty_full_does_not_abort :
    ((Bitmap.reserve 1).tryToSet 0).2 = Bitmap.mk 1 [1] ∧
    (∀ j, j < (Bitmap.mk 1 [1]).elements → (Bitmap.mk 1 [1]).isSet j = true) ∧
    (Bitmap.mk 1 [1]).setFirstEmpty 0 = .found (Bitmap.mk 1 [3]) 1 ∧
    (Bitmap.mk 1 [1]).setFirstEmpty 0 ≠ .fullAbort := by decide

/-- C7: iterating the bitmap built from the string 010011 does yield the
indices 1, 4, 5 and then lands exactly on `elementCount = 6`; but on the
all-zero bitmap of size 5, `begin()` (which calls `lowestSetBit`) reads word
index 1 of the one-word buffer instead of returning `elementCount`. -/
theorem iterator_example_and_all_zero_oob :
    Bitmap.ofString ['0', '1', '0', '0', '1', '1'] = .ok (Bitmap.mk 6 [50]) ∧
    (Bitmap.mk 6 [50]).lowestSetBit = .ok 1 ∧
    iterNext (Bitmap.mk 6 [50]) 1 = 4 ∧
    iterNext (Bitmap.mk 6 [50]) 4 = 5 ∧
    iterNext (Bitmap.mk 6 [50]) 5 = 6 ∧
    (Bitmap.mk 6 [50]).bitCount = 6 ∧
    (Bitmap.reserve 5).lowestSetBit = .oobRead 1 ∧
    (Bitmap.reserve 5).bitarray.length = 1 := by decide

/-- C6 counterexample: the bitmap constructed from the one-character string 1
(reachable, and equal to reserve(1) followed by tryToSet(0)) has
`inUseCount() = 0` while its `to_string()` contains one 1 character, because
`inUseCount` popcounts only the `elementCount / WORDBITS = 0` full words. -/
theorem inUseCount_counterexample :
    Bitmap.ofString ['1'] = .ok (Bitmap.mk 1 [1]) ∧
    (Bitmap.mk 1 [1]).inUseCount = 0 ∧
    (Bitmap.mk 1 [1]).to_string.count '1' = 1 := by decide

/-- Running the string constructor body over a block of valid characters sets
exactly the bits named by the 1 characters of the block, at offsets shifted by
the starting index, and touches nothing else. -/
theorem buildBits_valid :
    ∀ (s : List Char) (b : Bitmap) (i : Nat),
      (∀ c ∈ s, c = '0' ∨ c = '1') →
      i + s.length ≤ b.elements →
      b.bitarray.length = (b.elements + 63) / 64 →
      (∀ j, i ≤ j → b.isSet j = false) →
      ∃ bb, buildBits b s i = .ok bb ∧ bb.elements = b.elements ∧
        bb.bitarray.length = b.bitarray.length ∧
        ∀ j, bb.isSet j =
          if i ≤ j ∧ j < i + s.length then decide (s.getD (j - i) '0' = '1')
          else b.isSet j := by
  intro s
  induction s with
  | nil =>
    intro b i _ hle hlen hzero
    refine ⟨b, rfl, rfl, rfl, ?_⟩
    intro j
    rw [if_neg (by simp)]
  | cons c rest ih =>
    intro b i hvalid hle hlen hzero
    have hval : c = '0' ∨ c = '1' := hvalid c (List.mem_cons_self c rest)
    have hvrest : ∀ d ∈ rest, d = '0' ∨ d = '1' :=
      fun d hd => hvalid d (List.mem_cons_of_mem c hd)
    simp only [List.length_cons] at hle
    have hk : i / 64 < b.bitarray.length := by
      rw [hlen]
      omega
    rcases hval with hv | hv
    · -- a 0 character: the bitmap is left untouched
      subst hv
      obtain ⟨bb, heq, he, hl, hbits⟩ :=
        ih b (i + 1) hvrest (by omega) hlen (fun j hj => hzero j (by omega))
      refine ⟨bb, ?_, he, hl, ?_⟩
      · rw [buildBits, if_pos (Or.inl rfl)]
        simpa using heq
      · intro j
        rw [hbits j]
        by_cases h1 : i + 1 ≤ j ∧ j < i + 1 + rest.length
        · rw [if_pos h1, if_pos (by simp only [List.length_cons]; omega)]
          have hji : j - i = (j - (i + 1)) + 1 := by omega
          rw [hji, List.getD_cons_succ]
        · rw [if_neg h1]
          by_cases h2 : j = i
          · subst h2
            rw [if_pos (by simp only [List.length_cons]; omega), hzero j (le_refl j),
              Nat.sub_self, List.getD_cons_zero]
            rfl
          · rw [if_neg (by simp only [List.length_cons]; omega)]
    · -- a 1 character: the bit at the character index is set
      subst hv
      obtain ⟨bb, heq, he, hl, hbits⟩ :=
        ih (b.tryToSet i).2 (i + 1) hvrest
          (by rw [tryToSet_elements]; omega)
          (by rw [tryToSet_length, tryToSet_elements]; exact hlen)
          (by
            intro j hj
            rw [isSet_tryToSet b i j hk, decide_eq_false (by omega : ¬ j = i),
              hzero j (by omega)]
            rfl)
      refine ⟨bb, ?_, by rw [he, tryToSet_elements], by rw [hl, tryToSet_length], ?_⟩
      · rw [buildBits, if_pos (Or.inr rfl)]
        simpa using heq
      · intro j
        rw [hbits j]
        by_cases h1 : i + 1 ≤ j ∧ j < i + 1 + rest.length
        · rw [if_pos h1, if_pos (by simp only [List.length_cons]; omega)]
          have hji : j - i = (j - (i + 1)) + 1 := by omega
          rw [hji, List.getD_cons_succ]
        · rw [if_neg h1, isSet_tryToSet b i j hk]
          by_cases h2 : j = i
          · subst h2
            rw [if_pos (by simp only [List.length_cons]; omega), decide_eq_true rfl,
              Nat.sub_self, List.getD_cons_zero]
            rfl
          · rw [if_neg (by simp only [List.length_cons]; omega),
              decide_eq_false h2]
            rfl

/-- C8: for every string of 0 and 1 characters, constructing a bitmap from it
and then calling `to_string()` with the default argument returns the original
string. -/
theorem ofString_to_string_roundtrip (s : List Char)
    (hvalid : ∀ c ∈ s, c = '0' ∨ c = '1') :
    ∃ bb, Bitmap.ofString s = .ok bb ∧ bb.to_string = s := by
  obtain ⟨bb, heq, he, _, hbits⟩ :=
    buildBits_valid s (Bitmap.reserve s.length) 0 hvalid
      (by rw [reserve_elements]; omega)
      (by rw [reserve_length, reserve_elements])
      (fun j _ => reserve_isSet s.length j)
  refine ⟨bb, heq, ?_⟩
  unfold Bitmap.to_string
  rw [he, reserve_elements]
  apply List.ext_getElem
  · simp
  · intro n h1 h2
    simp only [List.getElem_map, List.getElem_range]
    have hn : n < s.length := by simpa using h2
    have hb := hbits n
    rw [if_pos (by omega), Nat.sub_zero] at hb
    have hgd : s.getD n '0' = s[n] := by
      rw [List.getD_eq_getElem?_getD, List.getElem?_eq_getElem hn]
      rfl
    rw [hb, hgd]
    rcases hvalid s[n] (List.getElem_mem hn) with hch | hch <;> rw [hch] <;> rfl

/-- Witness for C8 at the two-character string 01. -/
theorem ofString_to_string_roundtrip_witness :
    ∃ bb, Bitmap.ofString ['0', '1'] = .ok bb ∧ bb.to_string = ['0', '1'] :=
  ofString_to_string_roundtrip ['0', '1'] (by decide)

/-- Processing a block of characters that ends in the ok state continues on
appended characters from that state, with the index advanced by the block
length. -/
theorem buildBits_append (t u : List Char) :
    ∀ (b : Bitmap) (i : Nat) (bt : Bitmap), buildBits b t i = .ok bt →
      buildBits b (t ++ u) i = buildBits bt u (i + t.length) := by
  induction t with
  | nil =>
    intro b i bt h
    have hb : b = bt := by
      simpa [buildBits] using h
    subst hb
    simp [buildBits]
  | cons c rest ih =>
    intro b i bt h
    by_cases hc : c = '0' ∨ c = '1'
    · rw [buildBits, if_pos hc] at h
      rw [List.cons_append, buildBits, if_pos hc, ih _ _ _ h, List.length_cons]
      have : i + 1 + rest.length = i + (rest.length + 1) := by omega
      rw [this]
    · rw [buildBits, if_neg hc] at h
      exact Except.noConfusion h

/-- C9 counterexample: constructing from the string 1x raises the invalid
character failure at index 1 while bit 0 is already set: the bitmap state at
the moment the failure is raised has a set bit. -/
theorem ofString_failure_with_bit_set :
    Bitmap.ofString ['1', 'x'] = .error (Bitmap.mk 2 [1]) ∧
    (Bitmap.mk 2 [1]).isSet 0 = true := by decide

/-- C9 (amended): construction from a string whose first invalid character
follows a valid prefix fails exactly at that character, with the bits for the
1 characters of the prefix already set (and nothing else set); the assertion
then aborts the process, so the partial bitmap is never returned to a caller. -/
theorem ofString_fails_at_first_invalid (t : List Char) (c : Char) (r : List Char)
    (hvalid : ∀ d ∈ t, d = '0' ∨ d = '1') (hc : ¬(c = '0' ∨ c = '1')) :
    ∃ bt, Bitmap.ofString (t ++ c :: r) = .error bt ∧
      bt.elements = (t ++ c :: r).length ∧
      ∀ j, bt.isSet j = decide (j < t.length ∧ t.getD j '0' = '1') := by
  obtain ⟨bt, heq, he, _, hbits⟩ :=
    buildBits_valid t (Bitmap.reserve (t ++ c :: r).length) 0 hvalid
      (by rw [reserve_elements]; simp)
      (by rw [reserve_length, reserve_elements])
      (fun j _ => reserve_isSet _ j)
  refine ⟨bt, ?_, by rw [he, reserve_elements], ?_⟩
  · unfold Bitmap.ofString
    rw [buildBits_append t (c :: r) _ 0 bt heq, buildBits, if_neg hc]
  · intro j
    have hb := hbits j
    by_cases hj : j < t.length
    · rw [if_pos (by omega), Nat.sub_zero] at hb
      rw [hb]
      simp [hj]
    · rw [if_neg (by omega), reserve_isSet] at hb
      rw [hb]
      simp [hj]

/-- Witness for the amended C9 at the string 1x. -/
theorem ofString_fails_at_first_invalid_witness :
    ∃ bt, Bitmap.ofString (['1'] ++ 'x' :: []) = .error bt ∧
      bt.elements = (['1'] ++ 'x' :: []).length ∧
      ∀ j, bt.isSet j =
        decide (j < (['1'] : List Char).length ∧ (['1'] : List Char).getD j '0' = '1') :=
  ofString_fails_at_first_invalid ['1'] 'x' [] (by decide) (by decide)

theorem popcountGo_fuel (w : Nat) :
    ∀ f1 f2, w ≤ f1 → w ≤ f2 → popcountGo f1 w = popcountGo f2 w := by
  induction w using Nat.strong_induction_on with
  | _ w ih =>
    intro f1 f2 h1 h2
    match f1, f2 with
    | 0, 0 => rfl
    | 0, f2 + 1 =>
      have hz : w = 0 := by omega
      subst hz
      simp [popcountGo]
    | f1 + 1, 0 =>
      have hz : w = 0 := by omega
      subst hz
      simp [popcountGo]
    | f1 + 1, f2 + 1 =>
      by_cases hz : w = 0
      · subst hz
        simp [popcountGo]
      · simp only [popcountGo, if_neg hz]
        rw [ih (w / 2) (by omega) f1 f2 (by omega) (by omega)]

theorem popcount_step (w : Nat) (hw : w ≠ 0) :
    popcount w = w % 2 + popcount (w / 2) := by
  unfold popcount
  obtain ⟨v, rfl⟩ : ∃ v, w = v + 1 := ⟨w - 1, by omega⟩
  simp only [popcountGo, if_neg hw]
  rw [popcountGo_fuel ((v + 1) / 2) v ((v + 1) / 2) (by omega) (by omega)]

theorem popcount_eq_countP :
    ∀ (k w : Nat), w < 2 ^ k →
      popcount w = (List.range k).countP (fun p => w.testBit p) := by
  intro k
  induction k with
  | zero =>
    intro w hwk
    interval_cases w
    rfl
  | succ k ih =>
    intro w hwk
    by_cases hz : w = 0
    · subst hz
      rw [List.countP_eq_zero.mpr (fun a _ => by simp [Nat.zero_testBit])]
      rfl
    · rw [popcount_step w hz, List.range_succ_eq_map, List.countP_cons, List.countP_map]
      have hfun : ((fun p => w.testBit p) ∘ Nat.succ) = (fun q => (w / 2).testBit q) := by
        funext q
        simp only [Function.comp]
        exact Nat.testBit_add_one w q
      rw [hfun, ← ih (w / 2) (by have := Nat.pow_succ 2 k; omega)]
      simp only [Nat.testBit_zero]
      by_cases hpar : w % 2 = 1
      · rw [if_pos (by simpa using hpar)]
        omega
      · rw [if_neg (by simpa using hpar)]
        omega

theorem foldl_add_map_sum (f : Nat → Nat) :
    ∀ (l : List Nat) (acc : Nat),
      l.foldl (fun c i => c + f i) acc = acc + (l.map f).sum := by
  intro l
  induction l with
  | nil =>
    intro acc
    simp
  | cons x xs ih =>
    intro acc
    simp only [List.foldl_cons, List.map_cons, List.sum_cons, ih]
    omega

theorem getD_lt_two_pow {ba : List Nat} (hw : ∀ w ∈ ba, w < 2 ^ 64) (i : Nat) :
    ba.getD i 0 < 2 ^ 64 := by
  by_cases h : i < ba.length
  · exact hw _ (getD_mem_of_lt h)
  · rw [List.getD_eq_getElem?_getD, List.getElem?_eq_none (by omega)]
    exact Nat.pos_pow_of_pos 64 (by omega)

theorem countP_blocks (ba : List Nat) (hw : ∀ w ∈ ba, w < 2 ^ 64) :
    ∀ m, (List.range (64 * m)).countP (fun j => (ba.getD (j / 64) 0).testBit (j % 64))
      = ((List.range m).map (fun i => popcount (ba.getD i 0))).sum := by
  intro m
  induction m with
  | zero => rfl
  | succ n ihm =>
    have hsplit : 64 * (n + 1) = 64 * n + 64 := by omega
    rw [hsplit, List.range_add, List.countP_append, ihm, List.range_succ n,
      List.map_append, List.sum_append]
    simp only [List.map_cons, List.map_nil, List.sum_cons, List.sum_nil]
    congr 1
    rw [List.countP_map,
      List.countP_congr (fun p hp => by
        have hp64 : p < 64 := List.mem_range.mp hp
        have e1 : (64 * n + p) / 64 = n := by omega
        have e2 : (64 * n + p) % 64 = p := by omega
        simp only [Function.comp]
        rw [e1, e2]),
      ← popcount_eq_countP 64 (ba.getD n 0) (getD_lt_two_pow hw n)]
    omega

theorem to_string_count_ones (b : Bitmap) :
    b.to_string.count '1' = (List.range b.elements).countP (fun i => b.isSet i) := by
  unfold Bitmap.to_string
  rw [List.count_eq_countP, List.countP_map]
  apply List.countP_congr
  intro a _
  simp only [Function.comp]
  cases h : b.isSet a <;> simp [h]

/-- C6 (amended): when `elementCount` is a multiple of the machine word width
(so that no partial final word exists), `inUseCount()` equals the number of 1
characters in `to_string()`; the counterexample shows the equality fails for a
partial final word, whose set bits `inUseCount` ignores. -/
theorem inUseCount_eq_count_ones_of_aligned (b : Bitmap)
    (hmul : b.elements % WORDBITS = 0)
    (hw : ∀ w ∈ b.bitarray, w < 2 ^ 64) :
    b.inUseCount = b.to_string.count '1' := by
  unfold Bitmap.inUseCount WORDBITS
  rw [foldl_add_map_sum, Nat.zero_add, to_string_count_ones,
    show (fun i => b.isSet i) = (fun j => (b.bitarray.getD (j / 64) 0).testBit (j % 64))
      from funext fun j => isSet_eq_testBit b j]
  have hm : b.elements = 64 * (b.elements / 64) := by
    unfold WORDBITS at hmul
    omega
  conv_rhs => rw [hm]
  rw [countP_blocks b.bitarray hw (b.elements / 64)]

/-- Witness for the amended C6 at a one-word bitmap of 64 bits with two set
bits. -/
theorem inUseCount_eq_count_ones_of_aligned_witness :
    (Bitmap.mk 64 [5]).inUseCount = (Bitmap.mk 64 [5]).to_string.count '1' :=
  inUseCount_eq_count_ones_of_aligned (Bitmap.mk 64 [5]) (by decide) (by decide)

/-- C10 counterexample: moving from a bitmap with 5 elements leaves the source
with `bitCount() = 5`, not 0: the move constructor nulls only the buffer
pointer and never resets `_elements`. -/
theorem moved_from_bitCount_not_zero :
    (moveCtor (RawBitmap.mk 5 (some [0]))).2.bitCount ≠ 0 := by decide

/-- C10 (amended): after a move the source is left with a null buffer, so its
destructor releases nothing, but `bitCount()` on the source still returns the
original element count rather than 0. -/
theorem moveCtor_spec (rhs : RawBitmap) :
    (moveCtor rhs).1 = RawBitmap.mk rhs.elements rhs.bitarrayPtr ∧
    (moveCtor rhs).2.bitarrayPtr = none ∧
    destructorFrees (moveCtor rhs).2 = false ∧
    (moveCtor rhs).2.bitCount = rhs.bitCount :=
  ⟨rfl, rfl, rfl, rfl⟩

end Mesh
